import Mathlib

/-!
Verification of the text-analysis and search/replace core of the Kun
multi-tab text editor.  Text buffers are shallowly embedded as `List Char`;
the interactive find/replace drivers of `src/ui/main_window.py`, the
statistics code of `src/core/text_analyzer.py` and the misspelled-word
scanner of `src/core/spell_checker.py` are translated to executable Lean
functions, and the specified properties are proved about them.
-/

/-! ## Search primitive

`QTextDocument.find` is library code outside this repository, so its
semantics are modelled from the spec: literal substring comparison,
case-folded when case sensitivity is off, and (for whole-word mode) a
candidate match is accepted only if the characters immediately preceding
`start` and following `end` (if they exist) are not alphanumeric or
underscore.  The search returns the first acceptable occurrence at or
after the given position. -/

/-- Word-constituent character for whole-word boundaries: alphanumeric or
underscore, as the spec fixes the boundary rule. -/
def isWordChar (c : Char) : Bool := c.isAlphanum || c = ('_')

/-- Case folding used by the search: identity when case-sensitive,
lower-casing otherwise. -/
def foldChar (cs : Bool) (c : Char) : Char := if cs then c else c.toLower

/-- Does `t` occur literally (modulo case folding) at offset `i` of `s`? -/
def matchesAt (s t : List Char) (cs : Bool) (i : Nat) : Bool :=
  decide (i + t.length ≤ s.length ∧
    ((s.drop i).take t.length).map (foldChar cs) = t.map (foldChar cs))

/-- Whole-word boundary check around a candidate match at `[i, i + |t|)`. -/
def boundaryOk (s t : List Char) (ww : Bool) (i : Nat) : Bool :=
  !ww ||
    ((decide (i = 0) || !(isWordChar (s.getD (i - 1) (' ')))) &&
     (decide (i + t.length = s.length) || !(isWordChar (s.getD (i + t.length) (' ')))))

/-- A candidate offset is accepted when the text matches and the whole-word
boundary condition (if enabled) holds. -/
def accepts (s t : List Char) (cs ww : Bool) (i : Nat) : Bool :=
  matchesAt s t cs i && boundaryOk s t ww i

/-- Fuelled linear scan for the first accepted offset at or after `i`. -/
def findFromGo (s t : List Char) (cs ww : Bool) : Nat → Nat → Option Nat
  | _, 0 => none
  | i, fuel + 1 =>
    if accepts s t cs ww i then some i else findFromGo s t cs ww (i + 1) fuel

/-- Modelled from the spec: forward `QTextDocument.find` — the first
accepted occurrence of `t` in `s` at or after position `pos`. -/
def findFrom (s t : List Char) (cs ww : Bool) (pos : Nat) : Option Nat :=
  findFromGo s t cs ww pos (s.length + 1 - pos)

/-- The highlight-all loop of `MainWindow.perform_find`: repeatedly search
from the end of the previous match, collecting `(start, end)` spans. -/
def findAllAux (s t : List Char) (cs ww : Bool) : Nat → Nat → List (Nat × Nat)
  | 0, _ => []
  | fuel + 1, pos =>
    match findFrom s t cs ww pos with
    | none => []
    | some m => (m, m + t.length) :: findAllAux s t cs ww fuel (m + t.length)

/-- All non-overlapping matches of `t` in `s`, left to right; an empty term
yields no matches (the UI rejects empty search text up front). -/
def findAll (s t : List Char) (cs ww : Bool) : List (Nat × Nat) :=
  if t = [] then [] else findAllAux s t cs ww (s.length + 1) 0

/-! ## Interactive search state (`MainWindow.perform_find`, `find_next`,
`find_previous`) -/

/-- Python `str.strip`: remove leading and trailing whitespace. -/
def trimL (l : List Char) : List Char :=
  ((l.dropWhile Char.isWhitespace).reverse.dropWhile Char.isWhitespace).reverse

/-- The interactive search session: stored match start positions and the
current match index (−1 when there is no current match). -/
structure SearchState where
  matchList : List Nat
  currentIdx : Int
deriving DecidableEq

/-- `MainWindow.perform_find`: strip the entered term; an empty result
leaves the session untouched (early return), otherwise rebuild the match
list from a fresh left-to-right scan and select the first match.  The find
widget offers only the case-sensitivity option, so whole-word is off. -/
def perform_find (buffer term : List Char) (cs : Bool) (st : SearchState) :
    SearchState :=
  let t := trimL term
  if t = [] then st
  else
    let ms := (findAll buffer t cs false).map Prod.fst
    { matchList := ms, currentIdx := if ms = [] then -1 else 0 }

/-- `MainWindow.find_next`: with a non-empty match list advance the current
index cyclically; with an empty one fall back to a fresh search. -/
def find_next (buffer term : List Char) (cs : Bool) (st : SearchState) :
    SearchState :=
  if st.matchList = [] then perform_find buffer term cs st
  else
    { matchList := st.matchList,
      currentIdx := (st.currentIdx + 1) % (st.matchList.length : Int) }

/-- `MainWindow.find_previous`: cyclic decrement, Python `%` semantics
(Euclidean remainder, matching Lean `Int.emod`). -/
def find_previous (buffer term : List Char) (cs : Bool) (st : SearchState) :
    SearchState :=
  if st.matchList = [] then perform_find buffer term cs st
  else
    { matchList := st.matchList,
      currentIdx := (st.currentIdx - 1) % (st.matchList.length : Int) }

/-! ## Replace dialog (`MainWindow.dialog_find_next`, `dialog_replace`,
`dialog_replace_all`) -/

/-- `MainWindow.dialog_find_next`: single forward search from `pos`; on
failure retry once from offset 0 when wrap-around is on.  Returns the span
that becomes the new selection, or `none`. -/
def dialog_find_next (buffer : List Char) (pos : Nat) (t : List Char)
    (cs ww wrap : Bool) : Option (Nat × Nat) :=
  if t = [] then none
  else
    match findFrom buffer t cs ww pos with
    | some m => some (m, m + t.length)
    | none =>
      if wrap then
        match findFrom buffer t cs ww 0 with
        | some m => some (m, m + t.length)
        | none => none
      else none

/-- `MainWindow.dialog_replace`: the cursor selection is `[a, b)`.  When a
non-empty selection equals the term exactly (Python `==`, always
case-sensitive), it is replaced and the cursor lands after the inserted
text; otherwise nothing changes.  Either way the handler then advances via
`dialog_find_next` (from the end of the old selection when nothing was
replaced). -/
def dialog_replace (buffer : List Char) (a b : Nat) (t r : List Char)
    (cs ww wrap : Bool) : List Char × Option (Nat × Nat) :=
  if t = [] then (buffer, none)
  else if a < b ∧ (buffer.drop a).take (b - a) = t then
    (buffer.take a ++ r ++ buffer.drop b,
      dialog_find_next (buffer.take a ++ r ++ buffer.drop b) (a + r.length) t
        cs ww wrap)
  else (buffer, dialog_find_next buffer b t cs ww wrap)

/-- The loop body of `MainWindow.dialog_replace_all`: search the mutating
document from `pos`, splice the replacement over the found match, and
resume at the end of the just-inserted replacement text. -/
def replaceAllMutAux (t r : List Char) (cs ww : Bool) :
    Nat → List Char → Nat → List Char × Nat
  | 0, doc, _ => (doc, 0)
  | fuel + 1, doc, pos =>
    match findFrom doc t cs ww pos with
    | none => (doc, 0)
    | some m =>
      let p := replaceAllMutAux t r cs ww fuel
        (doc.take m ++ r ++ doc.drop (m + t.length)) (m + r.length)
      (p.1, p.2 + 1)

/-- `MainWindow.dialog_replace_all`: empty term returns immediately,
otherwise run the replace loop from offset 0.  The fuel `|buffer| + 1`
bounds the number of substitutions, since every step consumes at least one
unscanned character. -/
def dialog_replace_all (buffer t r : List Char) (cs ww : Bool) :
    List Char × Nat :=
  if t = [] then (buffer, 0)
  else replaceAllMutAux t r cs ww (buffer.length + 1) buffer 0

/-- Modelled from the spec: one pass of non-overlapping scan-and-substitute
over the original buffer — matches are located in `s` itself (never in
already-substituted output) and the scan resumes at each match end. -/
def replaceAllOnePassAux (s t r : List Char) (cs ww : Bool) :
    Nat → Nat → List Char × Nat
  | 0, pos => (s.drop pos, 0)
  | fuel + 1, pos =>
    match findFrom s t cs ww pos with
    | none => (s.drop pos, 0)
    | some m =>
      let p := replaceAllOnePassAux s t r cs ww fuel (m + t.length)
      ((s.drop pos).take (m - pos) ++ r ++ p.1, p.2 + 1)

/-- Modelled from the spec: `replaceAll` as a single left-to-right pass
over the original buffer, returning the new buffer and substitution
count. -/
def replaceAllOnePass (s t r : List Char) (cs ww : Bool) : List Char × Nat :=
  if t = [] then (s, 0) else replaceAllOnePassAux s t r cs ww (s.length + 1) 0

/-- Suffix-structured single pass (case-sensitive, no whole-word): proof
vehicle that replaces the absolute positions of `replaceAllOnePassAux`
with recursion on the unscanned suffix. -/
def rep1 (t r : List Char) (u : List Char) : List Char × Nat :=
  if hu : u.length = 0 then (u, 0)
  else
    match findFrom u t true false 0 with
    | none => (u, 0)
    | some d =>
      if ht : t.length = 0 then (u, 0)
      else
        let p := rep1 t r (u.drop (d + t.length))
        (u.take d ++ r ++ p.1, p.2 + 1)
termination_by u.length
decreasing_by simp [List.length_drop]; omega

/-! ## Text analyzer (`TextAnalyzer.get_line_col`) -/

/-- Index of the last newline in a list, as Python `str.rfind` reports it
(`none` standing for −1). -/
def lastNL : List Char → Option Nat
  | [] => none
  | c :: cs =>
    match lastNL cs with
    | some k => some (k + 1)
    | none => if c = ('\n') then some 0 else none

/-- `TextAnalyzer.get_line_col`: empty text or a negative cursor yield
`(1, 1)`; otherwise the offset is clamped to the text length, the line is
one plus the newlines before it, and the column counts from the last
newline (or from the start of the text). -/
def get_line_col (text : List Char) (cursorPos : Int) : Nat × Nat :=
  if text = [] ∨ cursorPos < 0 then (1, 1)
  else
    match lastNL (text.take (min cursorPos.toNat text.length)) with
    | none => ((text.take (min cursorPos.toNat text.length)).count ('\n') + 1,
        min cursorPos.toNat text.length + 1)
    | some k => ((text.take (min cursorPos.toNat text.length)).count ('\n') + 1,
        min cursorPos.toNat text.length - k)

/-- The claim's formula for `lineColumnAt`: clamp the offset to
`[0, len]` first, then apply the newline-counting formula uniformly. -/
def lineColClaim (text : List Char) (off : Int) : Nat × Nat :=
  match lastNL (text.take (min (max off 0).toNat text.length)) with
  | none => ((text.take (min (max off 0).toNat text.length)).count ('\n') + 1,
      min (max off 0).toNat text.length + 1)
  | some k => ((text.take (min (max off 0).toNat text.length)).count ('\n') + 1,
      min (max off 0).toNat text.length - k)

/-! ## Spell checker (`BasicSpellChecker`) -/

/-- ASCII letter, the character class `[a-zA-Z]` of the token regex. -/
def isAsciiLetter (c : Char) : Bool :=
  ((('a') ≤ c) && (c ≤ ('z'))) || ((('A') ≤ c) && (c ≤ ('Z')))

/-- Word-constituent character of the regex `\b` boundary (`\w`):
modelled for ASCII text as letter, digit or underscore. -/
def isReWordChar (c : Char) : Bool := isAsciiLetter c || c.isDigit || c = ('_')

/-- Modelled from the spec of Python `re.finditer` over the pattern
`\b[a-zA-Z]+\b` (library code outside this repository): the matches are
the maximal ASCII-letter runs whose flanks are not word characters.  The
scan carries the running offset, whether the previous character was a word
character, and the pending letter run (start offset and reversed
characters). -/
def scanTokensAux : Nat → Bool → Option (Nat × List Char) → List Char →
    List (List Char × Nat × Nat)
  | i, _, cur, [] =>
    match cur with
    | some (s, acc) => [(acc.reverse, s, i)]
    | none => []
  | i, pw, cur, c :: cs =>
    match cur with
    | some (s, acc) =>
      if isAsciiLetter c then scanTokensAux (i + 1) true (some (s, c :: acc)) cs
      else if isReWordChar c then scanTokensAux (i + 1) true none cs
      else (acc.reverse, s, i) :: scanTokensAux (i + 1) false none cs
    | none =>
      if isAsciiLetter c && !pw then scanTokensAux (i + 1) true (some (i, [c])) cs
      else scanTokensAux (i + 1) (isReWordChar c) none cs

/-- `BasicSpellChecker.check_word` (enabled path): empty or non-alphabetic
words are accepted unconditionally; alphabetic words are looked up
lower-cased in the dictionary `known`. -/
def check_word (known : List Char → Bool) (w : List Char) : Bool :=
  if w = [] then true
  else if !(w.all Char.isAlpha) then true
  else known (w.map Char.toLower)

/-- `BasicSpellChecker.find_misspelled_words` (enabled path): tokenize and
keep the `(word, start, end)` triples whose word fails `check_word`. -/
def find_misspelled_words (known : List Char → Bool) (text : List Char) :
    List (List Char × Nat × Nat) :=
  (scanTokensAux 0 false none text).filter (fun p => !(check_word known p.1))

/-! ## Basic facts about the search primitive -/

theorem accepts_length_le {s t : List Char} {cs ww : Bool} {i : Nat}
    (h : accepts s t cs ww i = true) : i + t.length ≤ s.length := by
  unfold accepts at h
  rw [Bool.and_eq_true] at h
  have h1 := h.1
  unfold matchesAt at h1
  exact (of_decide_eq_true h1).1

theorem findFromGo_eq_some_iff (s t : List Char) (cs ww : Bool) :
    ∀ (fuel i m : Nat),
      findFromGo s t cs ww i fuel = some m ↔
        (i ≤ m ∧ m < i + fuel ∧ accepts s t cs ww m = true ∧
          ∀ j, i ≤ j → j < m → accepts s t cs ww j = false) := by
  intro fuel
  induction fuel with
  | zero =>
    intro i m
    constructor
    · intro h; simp [findFromGo] at h
    · intro ⟨h1, h2, _⟩; omega
  | succ fuel ih =>
    intro i m
    simp only [findFromGo]
    by_cases hacc : accepts s t cs ww i = true
    · simp only [hacc, if_true]
      constructor
      · intro h
        have hm : i = m := by cases h; rfl
        subst hm
        exact ⟨le_refl i, by omega, hacc, fun j h1 h2 => by omega⟩
      · intro ⟨h1, h2, h3, h4⟩
        have : i = m := by
          by_contra hne
          have hlt : i < m := by omega
          simp [h4 i (le_refl i) hlt] at hacc
        rw [this]
    · simp only [hacc, if_false, Bool.false_eq_true]
      rw [ih (i + 1) m]
      constructor
      · intro ⟨h1, h2, h3, h4⟩
        refine ⟨by omega, by omega, h3, fun j hj1 hj2 => ?_⟩
        by_cases hji : j = i
        · subst hji; exact Bool.eq_false_iff.mpr hacc
        · exact h4 j (by omega) hj2
      · intro ⟨h1, h2, h3, h4⟩
        have hmi : i ≠ m := by
          intro he; subst he; exact hacc h3
        refine ⟨by omega, by omega, h3, fun j hj1 hj2 => h4 j (by omega) hj2⟩

theorem findFromGo_eq_none_iff (s t : List Char) (cs ww : Bool) :
    ∀ (fuel i : Nat),
      findFromGo s t cs ww i fuel = none ↔
        ∀ j, i ≤ j → j < i + fuel → accepts s t cs ww j = false := by
  intro fuel
  induction fuel with
  | zero =>
    intro i
    constructor
    · intro _ j h1 h2; omega
    · intro _; rfl
  | succ fuel ih =>
    intro i
    simp only [findFromGo]
    by_cases hacc : accepts s t cs ww i = true
    · simp only [hacc, if_true]
      constructor
      · intro h; cases h
      · intro h
        simp [h i (le_refl i) (by omega)] at hacc
    · simp only [hacc, if_false, Bool.false_eq_true]
      rw [ih (i + 1)]
      constructor
      · intro h j hj1 hj2
        by_cases hji : j = i
        · subst hji; exact Bool.eq_false_iff.mpr hacc
        · exact h j (by omega) (by omega)
      · intro h j hj1 hj2
        exact h j (by omega) (by omega)

theorem findFrom_eq_some_iff {s t : List Char} {cs ww : Bool} {pos m : Nat} :
    findFrom s t cs ww pos = some m ↔
      (pos ≤ m ∧ accepts s t cs ww m = true ∧
        ∀ j, pos ≤ j → j < m → accepts s t cs ww j = false) := by
  unfold findFrom
  rw [findFromGo_eq_some_iff]
  constructor
  · intro ⟨h1, _, h3, h4⟩; exact ⟨h1, h3, h4⟩
  · intro ⟨h1, h3, h4⟩
    have hb : m + t.length ≤ s.length := accepts_length_le h3
    exact ⟨h1, by omega, h3, h4⟩

theorem findFrom_eq_none_iff {s t : List Char} {cs ww : Bool} {pos : Nat} :
    findFrom s t cs ww pos = none ↔
      ∀ j, pos ≤ j → accepts s t cs ww j = false := by
  unfold findFrom
  rw [findFromGo_eq_none_iff]
  constructor
  · intro h j hj
    by_cases hlt : j < pos + (s.length + 1 - pos)
    · exact h j hj hlt
    · have : ¬(j + t.length ≤ s.length) := by omega
      rw [Bool.eq_false_iff]
      intro hacc
      exact this (accepts_length_le hacc)
  · intro h j hj _
    exact h j hj

theorem accepts_ww_false (s t : List Char) (cs : Bool) (i : Nat) :
    accepts s t cs false i = matchesAt s t cs i := by
  unfold accepts boundaryOk
  simp

theorem matchesAt_drop {t : List Char} (ht : t ≠ []) (s : List Char) (cs : Bool)
    (k j : Nat) : matchesAt s t cs (k + j) = matchesAt (s.drop k) t cs j := by
  have hL : 0 < t.length := List.length_pos.mpr ht
  have hdd : (s.drop k).drop j = s.drop (k + j) := by
    rw [List.drop_drop, Nat.add_comm]
  have hlen : (s.drop k).length = s.length - k := List.length_drop k s
  unfold matchesAt
  apply decide_eq_decide.mpr
  constructor
  · intro ⟨hle, heq⟩
    refine ⟨by omega, ?_⟩
    rw [hdd]
    exact heq
  · intro ⟨hle, heq⟩
    rw [hlen] at hle
    refine ⟨by omega, ?_⟩
    rw [← hdd]
    exact heq

theorem accepts_drop {t : List Char} (ht : t ≠ []) (s : List Char) (cs : Bool)
    (k j : Nat) : accepts s t cs false (k + j) = accepts (s.drop k) t cs false j := by
  rw [accepts_ww_false, accepts_ww_false, matchesAt_drop ht]

theorem findFrom_drop {t : List Char} (ht : t ≠ []) (s : List Char) (cs : Bool)
    (k j : Nat) :
    findFrom s t cs false (k + j) =
      Option.map (fun d => k + d) (findFrom (s.drop k) t cs false j) := by
  cases h : findFrom (s.drop k) t cs false j with
  | none =>
    simp only [Option.map_none']
    rw [findFrom_eq_none_iff]
    intro i hi
    have hik : i = k + (i - k) := by omega
    rw [hik, accepts_drop ht]
    exact (findFrom_eq_none_iff.mp h) (i - k) (by omega)
  | some d =>
    simp only [Option.map_some']
    obtain ⟨hjd, hacc, hmin⟩ := findFrom_eq_some_iff.mp h
    rw [findFrom_eq_some_iff]
    refine ⟨by omega, ?_, ?_⟩
    · rw [accepts_drop ht]
      exact hacc
    · intro i hi hlt
      have hik : i = k + (i - k) := by omega
      rw [hik, accepts_drop ht]
      exact hmin (i - k) (by omega) (by omega)

theorem findAllAux_mem (s t : List Char) (cs ww : Bool) :
    ∀ (fuel pos : Nat) (p : Nat × Nat), p ∈ findAllAux s t cs ww fuel pos →
      pos ≤ p.1 ∧ p.2 = p.1 + t.length ∧ p.1 + t.length ≤ s.length := by
  intro fuel
  induction fuel with
  | zero => intro pos p h; simp [findAllAux] at h
  | succ fuel ih =>
    intro pos p h
    simp only [findAllAux] at h
    cases hf : findFrom s t cs ww pos with
    | none => rw [hf] at h; simp at h
    | some m =>
      rw [hf] at h
      obtain ⟨hpos, hacc, _⟩ := findFrom_eq_some_iff.mp hf
      rcases List.mem_cons.mp h with he | htail
      · subst he
        exact ⟨hpos, rfl, accepts_length_le hacc⟩
      · have := ih (m + t.length) p htail
        exact ⟨by omega, this.2.1, this.2.2⟩

theorem findAllAux_pairwise {t : List Char} (ht : t ≠ []) (s : List Char)
    (cs ww : Bool) :
    ∀ (fuel pos : Nat),
      List.Pairwise (fun p q : Nat × Nat => p.2 ≤ q.1 ∧ p.1 < q.1)
        (findAllAux s t cs ww fuel pos) := by
  have hL : 0 < t.length := List.length_pos.mpr ht
  intro fuel
  induction fuel with
  | zero => intro pos; simp [findAllAux]
  | succ fuel ih =>
    intro pos
    simp only [findAllAux]
    cases hf : findFrom s t cs ww pos with
    | none => exact List.Pairwise.nil
    | some m =>
      refine List.Pairwise.cons ?_ (ih (m + t.length))
      intro q hq
      have := findAllAux_mem s t cs ww fuel (m + t.length) q hq
      exact ⟨this.1, by omega⟩

/-- Claim C1: the match set produced by the highlight-all scan consists of
pairwise non-overlapping spans sorted ascending by start (the scan resumes
at the end of each accepted match), every span is non-degenerate, and
searching the buffer `abcabcabc` for `abcabc` yields exactly the single
span `(0, 6)`, not two overlapping ones. -/
theorem C1_findAll_nonoverlapping_sorted :
    (∀ (s t : List Char) (cs ww : Bool), t ≠ [] →
      List.Pairwise (fun p q : Nat × Nat => p.2 ≤ q.1 ∧ p.1 < q.1)
        (findAll s t cs ww) ∧
      ∀ p ∈ findAll s t cs ww, p.1 < p.2) ∧
    findAll (("abcabcabc").data) (("abcabc").data) true false = [(0, 6)] := by
  constructor
  · intro s t cs ww ht
    have hL : 0 < t.length := List.length_pos.mpr ht
    unfold findAll
    rw [if_neg ht]
    refine ⟨findAllAux_pairwise ht s cs ww (s.length + 1) 0, ?_⟩
    intro p hp
    have := findAllAux_mem s t cs ww (s.length + 1) 0 p hp
    omega
  · decide

/-- Witness for C1 at a concrete buffer and term. -/
theorem C1_findAll_nonoverlapping_sorted_witness :
    List.Pairwise (fun p q : Nat × Nat => p.2 ≤ q.1 ∧ p.1 < q.1)
      (findAll (("aa").data) (("a").data) true false) :=
  (C1_findAll_nonoverlapping_sorted.1 (("aa").data) (("a").data) true false
    (by decide)).1

/-! ## Interactive search session claims -/

theorem trimL_eq_nil_of_all_ws {term : List Char}
    (h : term.all Char.isWhitespace = true) : trimL term = [] := by
  unfold trimL
  have h1 : term.dropWhile Char.isWhitespace = [] := by
    rw [List.dropWhile_eq_nil_iff]
    intro x hx
    exact (List.all_eq_true.mp h) x hx
  rw [h1]
  rfl

/-- Claim C10: `perform_find` strips the entered term first, so a term that
is empty or all-whitespace triggers no search at all — the session state
(match list, current index, hence the highlights derived from them) is
returned unchanged. -/
theorem C10_whitespace_term_no_search :
    ∀ (buffer term : List Char) (cs : Bool) (st : SearchState),
      term.all Char.isWhitespace = true →
      perform_find buffer term cs st = st := by
  intro buffer term cs st h
  unfold perform_find
  simp [trimL_eq_nil_of_all_ws h]

/-- Witness for C10 on a whitespace-only term. -/
theorem C10_whitespace_term_no_search_witness :
    perform_find (("ab").data) (("  ").data) true ⟨[1], 0⟩ = ⟨[1], 0⟩ :=
  C10_whitespace_term_no_search (("ab").data) (("  ").data) true ⟨[1], 0⟩
    (by decide)

theorem int_neg_one_emod {n : Int} (hn : 1 ≤ n) : (-1 : Int) % n = n - 1 := by
  have h1 : ((-1 : Int) + n * 1) % n = (-1 : Int) % n :=
    Int.add_mul_emod_self_left (-1) n 1
  have h2 : (-1 : Int) + n * 1 = n - 1 := by ring
  rw [h2] at h1
  rw [← h1]
  exact Int.emod_eq_of_lt (by omega) (by omega)

/-- Claim C6: on a non-empty match list with a valid current index,
`find_next` advances the index to `(current + 1) mod count` (wrapping past
the last match to 0) and `find_previous` to `(current - 1) mod count`
(wrapping from 0 to the last match), neither touching the match list; on
an empty match list whose (re-)search finds nothing, both operations are
no-ops leaving the index at −1. -/
theorem C6_next_previous_cyclic :
    ∀ (buffer term : List Char) (cs : Bool) (st : SearchState),
      (st.matchList ≠ [] → 0 ≤ st.currentIdx →
          st.currentIdx < (st.matchList.length : Int) →
        (find_next buffer term cs st).matchList = st.matchList ∧
        (find_next buffer term cs st).currentIdx =
          (st.currentIdx + 1) % (st.matchList.length : Int) ∧
        (st.currentIdx = (st.matchList.length : Int) - 1 →
          (find_next buffer term cs st).currentIdx = 0) ∧
        (find_previous buffer term cs st).matchList = st.matchList ∧
        (find_previous buffer term cs st).currentIdx =
          (st.currentIdx - 1) % (st.matchList.length : Int) ∧
        (st.currentIdx = 0 →
          (find_previous buffer term cs st).currentIdx =
            (st.matchList.length : Int) - 1)) ∧
      (st.matchList = [] → st.currentIdx = -1 →
          findAll buffer (trimL term) cs false = [] →
        find_next buffer term cs st = st ∧
        find_previous buffer term cs st = st) := by
  intro buffer term cs st
  constructor
  · intro hne h0 hlt
    have hlen : 1 ≤ (st.matchList.length : Int) := by
      have : st.matchList.length ≠ 0 := fun h =>
        hne (List.length_eq_zero.mp h)
      omega
    unfold find_next find_previous
    rw [if_neg hne, if_neg hne]
    refine ⟨rfl, rfl, ?_, rfl, rfl, ?_⟩
    · intro hc
      simp only [hc]
      have : (st.matchList.length : Int) - 1 + 1 = (st.matchList.length : Int) := by
        ring
      rw [this, Int.emod_self]
    · intro hc
      simp only [hc]
      have h01 : (0 : Int) - 1 = -1 := by ring
      rw [h01, int_neg_one_emod hlen]
  · intro hne hidx hfa
    obtain ⟨ml, ci⟩ := st
    simp only at hne hidx
    subst hne
    subst hidx
    have hgoal : perform_find buffer term cs ⟨[], -1⟩ = ⟨[], -1⟩ := by
      unfold perform_find
      by_cases htr : trimL term = []
      · simp [htr]
      · simp [htr, hfa]
    constructor
    · unfold find_next
      rw [if_pos rfl]
      exact hgoal
    · unfold find_previous
      rw [if_pos rfl]
      exact hgoal

/-- Witness for C6: advancing from index 1 in a two-match set. -/
theorem C6_next_previous_cyclic_witness :
    (find_next (("ab").data) (("b").data) true ⟨[5, 9], 1⟩).currentIdx =
      ((1 : Int) + 1) % ((2 : Nat) : Int) :=
  ((C6_next_previous_cyclic (("ab").data) (("b").data) true ⟨[5, 9], 1⟩).1
    (by decide) (by decide) (by decide)).2.1

/-! ## Replace dialog claims -/

theorem dialog_find_next_sound {buffer : List Char} {pos : Nat}
    {t : List Char} {cs ww wrap : Bool} {m e : Nat}
    (h : dialog_find_next buffer pos t cs ww wrap = some (m, e)) :
    accepts buffer t cs ww m = true ∧ e = m + t.length := by
  unfold dialog_find_next at h
  by_cases ht : t = []
  · rw [if_pos ht] at h; cases h
  · rw [if_neg ht] at h
    cases h1 : findFrom buffer t cs ww pos with
    | some m1 =>
      rw [h1] at h
      have he : m1 = m ∧ m1 + t.length = e := by
        have := h
        injection this with hp
        injection hp with hp1 hp2
        exact ⟨hp1, hp2⟩
      obtain ⟨he1, he2⟩ := he
      subst he1
      exact ⟨(findFrom_eq_some_iff.mp h1).2.1, he2.symm⟩
    | none =>
      rw [h1] at h
      cases hw : wrap with
      | false => rw [hw] at h; simp at h
      | true =>
        rw [hw] at h
        simp only [if_true] at h
        cases h2 : findFrom buffer t cs ww 0 with
        | some m2 =>
          rw [h2] at h
          have he : m2 = m ∧ m2 + t.length = e := by
            have := h
            injection this with hp
            injection hp with hp1 hp2
            exact ⟨hp1, hp2⟩
          obtain ⟨he1, he2⟩ := he
          subst he1
          exact ⟨(findFrom_eq_some_iff.mp h2).2.1, he2.symm⟩
        | none => rw [h2] at h; cases h

/-- Claim C7: when replace-one is invoked while the current selection does
not equal the search term, the buffer is left unchanged and the handler
still advances to the next match; when the selection equals the term,
exactly that selection is replaced before advancing.  Any selection the
advance produces is a genuine accepted match in the resulting buffer. -/
theorem C7_replace_mismatch_noop :
    ∀ (buffer : List Char) (a b : Nat) (t r : List Char) (cs ww wrap : Bool),
      t ≠ [] →
      (¬(a < b ∧ (buffer.drop a).take (b - a) = t) →
        (dialog_replace buffer a b t r cs ww wrap).1 = buffer ∧
        (dialog_replace buffer a b t r cs ww wrap).2 =
          dialog_find_next buffer b t cs ww wrap) ∧
      ((a < b ∧ (buffer.drop a).take (b - a) = t) →
        (dialog_replace buffer a b t r cs ww wrap).1 =
          buffer.take a ++ r ++ buffer.drop b ∧
        (dialog_replace buffer a b t r cs ww wrap).2 =
          dialog_find_next (buffer.take a ++ r ++ buffer.drop b)
            (a + r.length) t cs ww wrap) ∧
      (∀ m e, (dialog_replace buffer a b t r cs ww wrap).2 = some (m, e) →
        accepts (dialog_replace buffer a b t r cs ww wrap).1 t cs ww m = true ∧
        e = m + t.length) := by
  intro buffer a b t r cs ww wrap ht
  unfold dialog_replace
  rw [if_neg ht]
  by_cases hsel : a < b ∧ (buffer.drop a).take (b - a) = t
  · rw [if_pos hsel]
    refine ⟨fun hc => absurd hsel hc, fun _ => ⟨rfl, rfl⟩, ?_⟩
    intro m e h
    exact dialog_find_next_sound h
  · rw [if_neg hsel]
    refine ⟨fun _ => ⟨rfl, rfl⟩, fun hc => absurd hc hsel, ?_⟩
    intro m e h
    exact dialog_find_next_sound h

/-- Witness for C7: a selection that does not match the term leaves the
buffer untouched. -/
theorem C7_replace_mismatch_noop_witness :
    (dialog_replace (("ab").data) 0 1 (("b").data) (("z").data)
      true false false).1 = ("ab").data :=
  ((C7_replace_mismatch_noop (("ab").data) 0 1 (("b").data) (("z").data)
    true false false (by decide)).1 (by decide)).1

/-- Claim C8: the replace-one guard compares the selected text to the term
by exact, case-sensitive equality even when the search itself is
case-insensitive, so a case-insensitively located match whose characters
differ in case from the term is never replaced — the buffer is unchanged
and the handler only advances. -/
theorem C8_replace_guard_case_sensitive :
    ∀ (buffer : List Char) (a b : Nat) (t r : List Char) (ww wrap : Bool),
      ((buffer.drop a).take (b - a)).map Char.toLower = t.map Char.toLower →
      (buffer.drop a).take (b - a) ≠ t →
      (dialog_replace buffer a b t r false ww wrap).1 = buffer ∧
      (dialog_replace buffer a b t r false ww wrap).2 =
        dialog_find_next buffer b t false ww wrap := by
  intro buffer a b t r ww wrap hfold hne
  have ht : t ≠ [] := by
    intro he
    subst he
    simp only [List.map_nil, List.map_eq_nil_iff] at hfold
    exact hne hfold
  unfold dialog_replace
  rw [if_neg ht, if_neg (fun hc : a < b ∧ (buffer.drop a).take (b - a) = t =>
    hne hc.2)]
  exact ⟨rfl, rfl⟩

/-- Witness for C8: the selection `Fox` found case-insensitively for term
`fox` is not replaced. -/
theorem C8_replace_guard_case_sensitive_witness :
    (dialog_replace (("Fox").data) 0 3 (("fox").data) (("cat").data)
      false false true).1 = ("Fox").data :=
  (C8_replace_guard_case_sensitive (("Fox").data) 0 3 (("fox").data)
    (("cat").data) false true (by decide) (by decide)).1

/-! ## Replace-all: the mutating loop refines the one-pass specification -/

theorem replaceAllMutAux_succ_none {t r doc : List Char} {cs ww : Bool}
    {fuel pos : Nat} (hf : findFrom doc t cs ww pos = none) :
    replaceAllMutAux t r cs ww (fuel + 1) doc pos = (doc, 0) := by
  simp [replaceAllMutAux, hf]

theorem replaceAllMutAux_succ_some {t r doc : List Char} {cs ww : Bool}
    {fuel pos m : Nat} (hf : findFrom doc t cs ww pos = some m) :
    replaceAllMutAux t r cs ww (fuel + 1) doc pos =
      ((replaceAllMutAux t r cs ww fuel
          (doc.take m ++ r ++ doc.drop (m + t.length)) (m + r.length)).1,
        (replaceAllMutAux t r cs ww fuel
          (doc.take m ++ r ++ doc.drop (m + t.length)) (m + r.length)).2 + 1) := by
  simp [replaceAllMutAux, hf]

theorem replaceAllOnePassAux_succ_none {s t r : List Char} {cs ww : Bool}
    {fuel pos : Nat} (hf : findFrom s t cs ww pos = none) :
    replaceAllOnePassAux s t r cs ww (fuel + 1) pos = (s.drop pos, 0) := by
  simp [replaceAllOnePassAux, hf]

theorem replaceAllOnePassAux_succ_some {s t r : List Char} {cs ww : Bool}
    {fuel pos m : Nat} (hf : findFrom s t cs ww pos = some m) :
    replaceAllOnePassAux s t r cs ww (fuel + 1) pos =
      ((s.drop pos).take (m - pos) ++ r ++
          (replaceAllOnePassAux s t r cs ww fuel (m + t.length)).1,
        (replaceAllOnePassAux s t r cs ww fuel (m + t.length)).2 + 1) := by
  simp [replaceAllOnePassAux, hf]

theorem replaceAllMutAux_eq_onePass {t : List Char} (ht : t ≠ [])
    (r : List Char) (cs : Bool) :
    ∀ (fuel : Nat) (s doc : List Char) (pos o : Nat),
      doc.drop pos = s.drop o →
      replaceAllMutAux t r cs false fuel doc pos =
        (doc.take pos ++ (replaceAllOnePassAux s t r cs false fuel o).1,
          (replaceAllOnePassAux s t r cs false fuel o).2) := by
  have hL : 0 < t.length := List.length_pos.mpr ht
  intro fuel
  induction fuel with
  | zero =>
    intro s doc pos o hdrop
    show (doc, 0) = (doc.take pos ++ s.drop o, 0)
    rw [← hdrop, List.take_append_drop]
  | succ fuel ih =>
    intro s doc pos o hdrop
    have hfd : findFrom doc t cs false pos =
        Option.map (fun d => pos + d) (findFrom (s.drop o) t cs false 0) := by
      have h := findFrom_drop ht doc cs pos 0
      rw [hdrop] at h
      exact h
    have hfs : findFrom s t cs false o =
        Option.map (fun d => o + d) (findFrom (s.drop o) t cs false 0) :=
      findFrom_drop ht s cs o 0
    cases h0 : findFrom (s.drop o) t cs false 0 with
    | none =>
      have h1 : findFrom doc t cs false pos = none := by rw [hfd, h0]; rfl
      have h2 : findFrom s t cs false o = none := by rw [hfs, h0]; rfl
      rw [replaceAllMutAux_succ_none h1, replaceAllOnePassAux_succ_none h2,
        ← hdrop, List.take_append_drop]
    | some d =>
      have h1 : findFrom doc t cs false pos = some (pos + d) := by
        rw [hfd, h0]; rfl
      have h2 : findFrom s t cs false o = some (o + d) := by
        rw [hfs, h0]; rfl
      have hacc : accepts (s.drop o) t cs false d = true :=
        (findFrom_eq_some_iff.mp h0).2.1
      have hdL : d + t.length ≤ (s.drop o).length := accepts_length_le hacc
      have hlens : (s.drop o).length = s.length - o := List.length_drop o s
      have hlend : (doc.drop pos).length = doc.length - pos :=
        List.length_drop pos doc
      have hsame : doc.length - pos = s.length - o := by
        rw [← hlend, ← hlens, hdrop]
      have hposd : pos + d + t.length ≤ doc.length := by omega
      have htake_len : (doc.take (pos + d)).length = pos + d := by
        rw [List.length_take]; omega
      have hAlen : (doc.take (pos + d) ++ r).length = pos + d + r.length := by
        rw [List.length_append, htake_len]
      have hassoc : doc.take (pos + d) ++ r ++ doc.drop (pos + d + t.length) =
          (doc.take (pos + d) ++ r) ++ doc.drop (pos + d + t.length) := by
        rw [List.append_assoc]
      have hdrop2 :
          (doc.take (pos + d) ++ r ++ doc.drop (pos + d + t.length)).drop
            (pos + d + r.length) = s.drop (o + d + t.length) := by
        rw [hassoc, ← hAlen, List.drop_left]
        have hdd1 : doc.drop (pos + d + t.length) =
            (doc.drop pos).drop (d + t.length) := by
          rw [List.drop_drop]
          congr 1
          omega
        have hdd2 : (s.drop o).drop (d + t.length) =
            s.drop (o + d + t.length) := by
          rw [List.drop_drop]
          congr 1
          omega
        rw [hdd1, hdrop, hdd2]
      have htake2 :
          (doc.take (pos + d) ++ r ++ doc.drop (pos + d + t.length)).take
            (pos + d + r.length) =
            doc.take pos ++ ((s.drop o).take d ++ r) := by
        rw [hassoc, ← hAlen, List.take_left]
        rw [List.take_add, hdrop, List.append_assoc]
      rw [replaceAllMutAux_succ_some h1, replaceAllOnePassAux_succ_some h2]
      rw [ih s _ (pos + d + r.length) (o + d + t.length) hdrop2]
      have hsub : o + d - o = d := by omega
      rw [hsub, htake2]
      simp [List.append_assoc]

theorem dialog_replace_all_eq_onePass (s t r : List Char) (cs : Bool) :
    dialog_replace_all s t r cs false = replaceAllOnePass s t r cs false := by
  unfold dialog_replace_all replaceAllOnePass
  by_cases ht : t = []
  · rw [if_pos ht, if_pos ht]
  · rw [if_neg ht, if_neg ht]
    rw [replaceAllMutAux_eq_onePass ht r cs (s.length + 1) s s 0 0 rfl]
    simp

/-- Claim C2 (amended): with whole-word matching disabled, the
`dialog_replace_all` loop that repeatedly searches the mutating document
from the end of each just-inserted replacement returns the same final
buffer and substitution count as a one-pass non-overlapping
scan-and-substitute over the original buffer, for every buffer, term,
replacement and case-sensitivity setting; in particular replacement text
is never re-scanned for further matches. -/
theorem C2_mutating_refines_onepass :
    ∀ (s t r : List Char) (cs : Bool),
      dialog_replace_all s t r cs false = replaceAllOnePass s t r cs false :=
  fun s t r cs => dialog_replace_all_eq_onePass s t r cs

/-- Counterexample to C2 as stated: with whole-word matching enabled, the
mutating loop and the one-pass scan disagree on buffer `-a--a-`, term
`-a-`, replacement `X` — the inserted `X` destroys the word boundary of
the second occurrence, so the code replaces once while the one-pass scan
over the original buffer replaces twice. -/
theorem C2_mutating_refines_onepass_counterexample :
    dialog_replace_all (("-a--a-").data) (("-a-").data) (("X").data)
      true true ≠
    replaceAllOnePass (("-a--a-").data) (("-a-").data) (("X").data)
      true true := by decide

/-! ## Round trip of replace-all -/

theorem foldChar_true_map (l : List Char) : l.map (foldChar true) = l := by
  induction l with
  | nil => rfl
  | cons c cs ih => rw [List.map_cons, ih]; rfl

theorem accepts_cs_true_iff {s t : List Char} {i : Nat} :
    accepts s t true false i = true ↔
      (i + t.length ≤ s.length ∧ (s.drop i).take t.length = t) := by
  rw [accepts_ww_false]
  unfold matchesAt
  rw [decide_eq_true_iff, foldChar_true_map, foldChar_true_map]

theorem rep1_nil (t r : List Char) : rep1 t r [] = ([], 0) := by
  rw [rep1.eq_def]
  rfl

theorem rep1_len_zero {u : List Char} (hu : u.length = 0) (t r : List Char) :
    rep1 t r u = (u, 0) := by
  have h : u = [] := List.length_eq_zero.mp hu
  subst h
  exact rep1_nil t r

theorem rep1_of_none {t r u : List Char}
    (hf : findFrom u t true false 0 = none) : rep1 t r u = (u, 0) := by
  by_cases hu : u.length = 0
  · exact rep1_len_zero hu t r
  · rw [rep1.eq_def]
    simp only [dif_neg hu, hf]

theorem rep1_of_some {t r u : List Char} {d : Nat} (hu : u.length ≠ 0)
    (ht : t.length ≠ 0) (hf : findFrom u t true false 0 = some d) :
    rep1 t r u =
      (u.take d ++ r ++ (rep1 t r (u.drop (d + t.length))).1,
        (rep1 t r (u.drop (d + t.length))).2 + 1) := by
  conv_lhs => rw [rep1.eq_def]
  simp only [dif_neg hu, hf, dif_neg ht]

theorem replaceAllOnePassAux_eq_rep1 {t : List Char} (ht : t ≠ [])
    (s r : List Char) :
    ∀ (fuel o : Nat), s.length + 1 - o ≤ fuel →
      replaceAllOnePassAux s t r true false fuel o = rep1 t r (s.drop o) := by
  have hL : 0 < t.length := List.length_pos.mpr ht
  intro fuel
  induction fuel with
  | zero =>
    intro o ho
    have hnil : s.drop o = [] := List.drop_eq_nil_of_le (by omega)
    show (s.drop o, 0) = rep1 t r (s.drop o)
    rw [hnil, rep1_nil]
  | succ fuel ih =>
    intro o ho
    by_cases hnil : s.drop o = []
    · have hso : s.length ≤ o := by
        have h := congrArg List.length hnil
        rw [List.length_drop] at h
        simp only [List.length_nil] at h
        omega
      have hf : findFrom s t true false o = none := by
        rw [findFrom_eq_none_iff]
        intro j hj
        rw [Bool.eq_false_iff]
        intro hacc
        have := accepts_length_le hacc
        omega
      rw [replaceAllOnePassAux_succ_none hf, hnil, rep1_nil]
    · have hu : (s.drop o).length ≠ 0 := fun h => hnil (List.length_eq_zero.mp h)
      have hsh : findFrom s t true false o =
          Option.map (fun d => o + d) (findFrom (s.drop o) t true false 0) :=
        findFrom_drop ht s true o 0
      cases h0 : findFrom (s.drop o) t true false 0 with
      | none =>
        have hf : findFrom s t true false o = none := by rw [hsh, h0]; rfl
        rw [replaceAllOnePassAux_succ_none hf, rep1_of_none h0]
      | some d =>
        have hf : findFrom s t true false o = some (o + d) := by
          rw [hsh, h0]; rfl
        have holen : o < s.length := by
          rw [List.length_drop] at hu
          omega
        have hfuel2 : s.length + 1 - (o + d + t.length) ≤ fuel := by omega
        rw [replaceAllOnePassAux_succ_some hf,
          ih (o + d + t.length) hfuel2,
          rep1_of_some hu (by omega) h0]
        have hsub : o + d - o = d := by omega
        have hdd : s.drop (o + d + t.length) =
            (s.drop o).drop (d + t.length) := by
          rw [List.drop_drop]
          congr 1
          omega
        rw [hsub, hdd]

theorem rep1_roundtrip {t r : List Char} (ht : t ≠ []) (hr : r ≠ []) :
    ∀ (n : Nat) (u : List Char), u.length ≤ n → (∀ c ∈ r, c ∉ u) →
      rep1 r t (rep1 t r u).1 = (u, (rep1 t r u).2) := by
  have htlen : t.length ≠ 0 := fun h => ht (List.length_eq_zero.mp h)
  have hrlen : r.length ≠ 0 := fun h => hr (List.length_eq_zero.mp h)
  intro n
  induction n with
  | zero =>
    intro u hu _
    have h : u = [] := List.length_eq_zero.mp (by omega)
    subst h
    rw [rep1_nil t r]
    exact rep1_nil r t
  | succ n ih =>
    intro u hu hdisj
    by_cases hu0 : u.length = 0
    · have h : u = [] := List.length_eq_zero.mp hu0
      subst h
      rw [rep1_nil t r]
      exact rep1_nil r t
    · cases h0 : findFrom u t true false 0 with
      | none =>
        rw [rep1_of_none h0]
        show rep1 r t u = (u, 0)
        have hfr : findFrom u r true false 0 = none := by
          rw [findFrom_eq_none_iff]
          intro j _
          rw [Bool.eq_false_iff]
          intro hacc
          obtain ⟨hjlen, hjslice⟩ := accepts_cs_true_iff.mp hacc
          obtain ⟨c, hc⟩ := List.exists_mem_of_ne_nil r hr
          apply hdisj c hc
          have hcd : c ∈ (u.drop j).take r.length := by
            rw [hjslice]; exact hc
          exact List.drop_subset j u (List.take_subset r.length (u.drop j) hcd)
        exact rep1_of_none hfr
      | some d =>
        obtain ⟨hdlenu, hslice⟩ :=
          accepts_cs_true_iff.mp (findFrom_eq_some_iff.mp h0).2.1
        rw [rep1_of_some hu0 htlen h0]
        show rep1 r t
            (u.take d ++ r ++ (rep1 t r (u.drop (d + t.length))).1) =
          (u, (rep1 t r (u.drop (d + t.length))).2 + 1)
        have hdle : d ≤ u.length := by omega
        have hdlen : (u.take d).length = d := by
          rw [List.length_take]; omega
        have hw : u.take d ++ r ++ (rep1 t r (u.drop (d + t.length))).1 =
            u.take d ++ (r ++ (rep1 t r (u.drop (d + t.length))).1) :=
          List.append_assoc ..
        have key1 : findFrom
            (u.take d ++ r ++ (rep1 t r (u.drop (d + t.length))).1) r
            true false 0 = some d := by
          rw [findFrom_eq_some_iff]
          refine ⟨Nat.zero_le d, ?_, ?_⟩
          · rw [accepts_cs_true_iff]
            constructor
            · rw [List.length_append, List.length_append, hdlen]
              omega
            · rw [hw, List.drop_left' hdlen]
              exact List.take_left r _
          · intro j _ hjd
            rw [Bool.eq_false_iff]
            intro haccj
            obtain ⟨hjlen, hjslice⟩ := accepts_cs_true_iff.mp haccj
            rw [hw] at hjslice
            have hdj : (u.take d ++
                (r ++ (rep1 t r (u.drop (d + t.length))).1)).drop j =
                (u.take d).drop j ++
                  (r ++ (rep1 t r (u.drop (d + t.length))).1) := by
              rw [List.drop_append_eq_append_drop,
                show j - (u.take d).length = 0 by omega, List.drop_zero]
            rw [hdj] at hjslice
            have hAne : (u.take d).drop j ≠ [] := by
              intro he
              have h := congrArg List.length he
              rw [List.length_drop, hdlen] at h
              simp only [List.length_nil] at h
              omega
            obtain ⟨a, A', hA⟩ := List.exists_cons_of_ne_nil hAne
            obtain ⟨rh, rt, hrc⟩ := List.exists_cons_of_ne_nil hr
            rw [hA, hrc] at hjslice
            simp only [List.cons_append, List.length_cons,
              List.take_succ_cons] at hjslice
            rw [List.cons.injEq] at hjslice
            have ha_eq : a = rh := hjslice.1
            have hau : a ∈ u := by
              have h1 : a ∈ (u.take d).drop j := by
                rw [hA]; exact List.mem_cons_self a A'
              exact List.take_subset d u (List.drop_subset j (u.take d) h1)
            have hrh : rh ∈ r := by
              rw [hrc]; exact List.mem_cons_self rh rt
            exact (hdisj rh hrh) (ha_eq ▸ hau)
        have key2 : (u.take d ++ r ++
            (rep1 t r (u.drop (d + t.length))).1).length ≠ 0 := by
          rw [List.length_append, List.length_append]
          omega
        rw [rep1_of_some key2 hrlen key1]
        have hwtake : (u.take d ++ r ++
            (rep1 t r (u.drop (d + t.length))).1).take d = u.take d := by
          rw [hw]
          exact List.take_left' hdlen
        have hwdrop : (u.take d ++ r ++
            (rep1 t r (u.drop (d + t.length))).1).drop (d + r.length) =
            (rep1 t r (u.drop (d + t.length))).1 := by
          have hlen2 : (u.take d ++ r).length = d + r.length := by
            rw [List.length_append, hdlen]
          exact List.drop_left' hlen2
        rw [hwtake, hwdrop]
        have hvlen : (u.drop (d + t.length)).length ≤ n := by
          rw [List.length_drop]; omega
        have hvdisj : ∀ c ∈ r, c ∉ u.drop (d + t.length) :=
          fun c hc hcv => hdisj c hc (List.drop_subset _ u hcv)
        have ihp := Prod.ext_iff.mp (ih (u.drop (d + t.length)) hvlen hvdisj)
        rw [ihp.1, ihp.2]
        have hsplit : t ++ u.drop (d + t.length) = u.drop d := by
          conv_rhs => rw [← List.take_append_drop t.length (u.drop d)]
          rw [hslice]
          congr 1
          rw [List.drop_drop]
        rw [List.append_assoc, hsplit, List.take_append_drop]

/-- Claim C4 (amended): replace-all with `(term, repl)` followed by
replace-all with `(repl, term)` restores the original buffer, for the
case-sensitive non-whole-word replace loop, whenever both strings are
non-empty and no character of the replacement occurs in the original
buffer (so the inserted copies of `repl` are the only places the reverse
pass can match). -/
theorem C4_replace_roundtrip :
    ∀ (s t r : List Char), t ≠ [] → r ≠ [] → (∀ c ∈ r, c ∉ s) →
      (dialog_replace_all ((dialog_replace_all s t r true false).1) r t
        true false).1 = s := by
  intro s t r ht hr hdisj
  have h1 : dialog_replace_all s t r true false = rep1 t r s := by
    rw [dialog_replace_all_eq_onePass]
    unfold replaceAllOnePass
    rw [if_neg ht,
      replaceAllOnePassAux_eq_rep1 ht s r (s.length + 1) 0 (by omega),
      List.drop_zero]
  have h2 : dialog_replace_all ((rep1 t r s).1) r t true false =
      rep1 r t ((rep1 t r s).1) := by
    rw [dialog_replace_all_eq_onePass]
    unfold replaceAllOnePass
    rw [if_neg hr,
      replaceAllOnePassAux_eq_rep1 hr ((rep1 t r s).1) t
        (((rep1 t r s).1).length + 1) 0 (by omega),
      List.drop_zero]
  rw [h1, h2, rep1_roundtrip ht hr s.length s (le_refl _) hdisj]

/-- Counterexample to C4 as stated: buffer `cab`, term `ab`, replacement
`c` — the strings do not overlap and neither is a substring of the other,
yet the forward pass yields `cc` and the reverse pass then turns both `c`s
into `ab`, producing `abab`, not `cab`. -/
theorem C4_replace_roundtrip_counterexample :
    (dialog_replace_all ((dialog_replace_all (("cab").data) (("ab").data)
      (("c").data) true false).1) (("c").data) (("ab").data) true false).1 ≠
      ("cab").data := by decide

/-- Witness for C4 at a concrete instance satisfying its hypotheses. -/
theorem C4_replace_roundtrip_witness :
    (dialog_replace_all ((dialog_replace_all (("xy").data) (("x").data)
      (("z").data) true false).1) (("z").data) (("x").data) true false).1 =
      ("xy").data :=
  C4_replace_roundtrip (("xy").data) (("x").data) (("z").data) (by decide)
    (by decide) (by decide)

/-! ## Concrete find/replace scenario -/

/-- Counterexample to C3 as stated: the buffer has length 37, and the
second whole-word, case-insensitive match of `fox` starts at offset 34,
not 35 — the match set is not `[(10,13), (35,38)]`. -/
theorem C3_fox_scenario_counterexample :
    findAll (("The quick fox jumps over the lazy fox").data) (("fox").data)
      false true ≠ [(10, 13), (35, 38)] := by decide

/-- Claim C3 (amended): on the buffer
`The quick fox jumps over the lazy fox` with term `fox`, case-insensitive
and whole-word, find-all returns exactly the two matches `(10,13)` and
`(34,37)`, and replace-all with `cat` returns
`The quick cat jumps over the lazy cat` with count 2. -/
theorem C3_fox_scenario :
    findAll (("The quick fox jumps over the lazy fox").data) (("fox").data)
      false true = [(10, 13), (34, 37)] ∧
    dialog_replace_all (("The quick fox jumps over the lazy fox").data)
      (("fox").data) (("cat").data) false true =
      ((("The quick cat jumps over the lazy cat").data), 2) := by
  constructor
  · decide
  · decide

/-! ## Line and column -/

theorem lastNL_lt_length : ∀ (l : List Char) (k : Nat),
    lastNL l = some k → k < l.length := by
  intro l
  induction l with
  | nil => intro k h; cases h
  | cons c cs ih =>
    intro k h
    simp only [lastNL] at h
    cases h1 : lastNL cs with
    | some k1 =>
      rw [h1] at h
      have hk : k1 + 1 = k := by injection h
      have := ih k1 h1
      simp only [List.length_cons]
      omega
    | none =>
      rw [h1] at h
      by_cases hc : c = ('\n')
      · rw [if_pos hc] at h
        have hk : 0 = k := by injection h
        simp only [List.length_cons]
        omega
      · rw [if_neg hc] at h
        cases h

/-- Claim C5: `get_line_col` agrees everywhere with the claim's
clamp-then-count formula; the column is always at least 1; a negative
offset or empty buffer yields `(1, 1)`; and on
`line1\nline2\nline3` at offset 7 the result is `(2, 2)`. -/
theorem C5_get_line_col :
    (∀ (text : List Char) (off : Int),
      get_line_col text off = lineColClaim text off ∧
      1 ≤ (get_line_col text off).2 ∧
      ((off < 0 ∨ text = []) → get_line_col text off = (1, 1))) ∧
    get_line_col (("line1\nline2\nline3").data) 7 = (2, 2) := by
  constructor
  · intro text off
    refine ⟨?_, ?_, ?_⟩
    · by_cases h : text = [] ∨ off < 0
      · have hg : get_line_col text off = (1, 1) := by
          unfold get_line_col; rw [if_pos h]
        rw [hg]
        rcases h with h | h
        · subst h
          simp [lineColClaim, lastNL]
        · unfold lineColClaim
          have hmax : max off 0 = 0 := max_eq_right (le_of_lt h)
          rw [hmax]
          simp [lastNL]
      · have hn := not_or.mp h
        unfold get_line_col lineColClaim
        rw [if_neg h, max_eq_left (not_lt.mp hn.2)]
    · by_cases h : text = [] ∨ off < 0
      · unfold get_line_col
        rw [if_pos h]
      · unfold get_line_col
        rw [if_neg h]
        cases hl : lastNL (text.take (min (Int.toNat off) text.length)) with
        | none =>
          simp only [hl]
          omega
        | some k =>
          have hk := lastNL_lt_length _ k hl
          rw [List.length_take] at hk
          simp only [hl]
          show 1 ≤ min (Int.toNat off) text.length - k
          omega
    · intro h
      unfold get_line_col
      rw [if_pos (Or.symm h)]
  · decide

/-! ## Spell checker token spans -/

theorem take_extend {t : List Char} {s i : Nat} {c : Char} (hsi : s ≤ i)
    (hti : t.drop i = c :: t.drop (i + 1)) :
    (t.drop s).take (i - s) ++ [c] = (t.drop s).take (i + 1 - s) := by
  have h1 : i + 1 - s = (i - s) + 1 := by omega
  rw [h1, List.take_succ]
  have h2 : (t.drop s)[i - s]? = some c := by
    rw [List.getElem?_drop]
    have h3 : s + (i - s) = i := by omega
    rw [h3]
    have h5 : (t.drop i)[0]? = some c := by rw [hti]; simp
    have h6 := List.getElem?_drop t i 0
    rw [Nat.add_zero] at h6
    exact h6.symm.trans h5
  rw [h2]
  rfl

theorem scanTokensAux_spec (t : List Char) :
    ∀ (l : List Char) (i : Nat) (pw : Bool) (cur : Option (Nat × List Char)),
      l = t.drop i → i ≤ t.length →
      (∀ s acc, cur = some (s, acc) →
        s ≤ i ∧ acc ≠ [] ∧ acc.all isAsciiLetter = true ∧
        acc.reverse = (t.drop s).take (i - s)) →
      ∀ p ∈ scanTokensAux i pw cur l,
        p.2.1 < p.2.2 ∧ p.2.2 ≤ t.length ∧
        (t.drop p.2.1).take (p.2.2 - p.2.1) = p.1 ∧
        p.1.all isAsciiLetter = true := by
  intro l
  induction l with
  | nil =>
    intro i pw cur hli hile hcur p hp
    cases cur with
    | none => simp [scanTokensAux] at hp
    | some sc =>
      obtain ⟨s, acc⟩ := sc
      simp only [scanTokensAux, List.mem_singleton] at hp
      subst hp
      obtain ⟨hs, hne, hall, hrev⟩ := hcur s acc rfl
      have hslen : s < i := by
        rcases Nat.lt_or_ge s i with h | h
        · exact h
        · exfalso
          have h0 : i - s = 0 := by omega
          rw [h0, List.take_zero] at hrev
          exact hne (List.reverse_eq_nil_iff.mp hrev)
      refine ⟨hslen, hile, hrev.symm, ?_⟩
      rw [List.all_reverse]
      exact hall
  | cons c cs ih =>
    intro i pw cur hli hile hcur p hp
    have hdropi : t.drop i = c :: cs := hli.symm
    have hlt : i < t.length := by
      by_contra hc
      have h0 : t.drop i = [] := List.drop_eq_nil_of_le (by omega)
      rw [h0] at hdropi
      exact List.noConfusion hdropi
    have hcs : cs = t.drop (i + 1) := by
      have h1 : (t.drop i).drop 1 = t.drop (i + 1) := by
        rw [List.drop_drop]
      rw [hdropi] at h1
      simp only [List.drop_succ_cons, List.drop_zero] at h1
      exact h1
    have hti : t.drop i = c :: t.drop (i + 1) := by rw [hdropi, hcs]
    have hile' : i + 1 ≤ t.length := by omega
    cases cur with
    | some sc =>
      obtain ⟨s, acc⟩ := sc
      obtain ⟨hs, hne, hall, hrev⟩ := hcur s acc rfl
      by_cases hcl : isAsciiLetter c = true
      · simp only [scanTokensAux, hcl, if_true] at hp
        refine ih (i + 1) true (some (s, c :: acc)) hcs hile' ?_ p hp
        intro s1 acc1 he
        injection he with he1
        injection he1 with he2 he3
        subst he2
        subst he3
        refine ⟨by omega, by simp, ?_, ?_⟩
        · rw [List.all_cons, hcl, hall]
          rfl
        · rw [List.reverse_cons, hrev, take_extend hs hti]
      · have hcl' : isAsciiLetter c = false := Bool.eq_false_iff.mpr hcl
        by_cases hcw : isReWordChar c = true
        · simp only [scanTokensAux, hcl', hcw, Bool.false_eq_true, if_false,
            if_true] at hp
          exact ih (i + 1) true none hcs hile'
            (fun s1 acc1 he => by cases he) p hp
        · have hcw' : isReWordChar c = false := Bool.eq_false_iff.mpr hcw
          simp only [scanTokensAux, hcl', hcw', Bool.false_eq_true,
            if_false] at hp
          rcases List.mem_cons.mp hp with he | htail
          · subst he
            have hslen : s < i := by
              rcases Nat.lt_or_ge s i with h | h
              · exact h
              · exfalso
                have h0 : i - s = 0 := by omega
                rw [h0, List.take_zero] at hrev
                exact hne (List.reverse_eq_nil_iff.mp hrev)
            have hit : i ≤ t.length := by omega
            refine ⟨hslen, hit, hrev.symm, ?_⟩
            rw [List.all_reverse]
            exact hall
          · exact ih (i + 1) false none hcs hile'
              (fun s1 acc1 he => by cases he) p htail
    | none =>
      by_cases hstart : (isAsciiLetter c && !pw) = true
      · simp only [scanTokensAux, hstart, if_true] at hp
        have hletter : isAsciiLetter c = true := (Bool.and_eq_true ..).mp hstart |>.1
        refine ih (i + 1) true (some (i, [c])) hcs hile' ?_ p hp
        intro s1 acc1 he
        injection he with he1
        injection he1 with he2 he3
        subst he2
        subst he3
        refine ⟨by omega, by simp, ?_, ?_⟩
        · rw [List.all_cons, hletter]
          rfl
        · have h1 : i + 1 - i = 1 := by omega
          rw [h1, hti]
          rfl
      · have hstart' : (isAsciiLetter c && !pw) = false :=
          Bool.eq_false_iff.mpr hstart
        simp only [scanTokensAux, hstart', Bool.false_eq_true, if_false] at hp
        exact ih (i + 1) (isReWordChar c) none hcs hile'
          (fun s1 acc1 he => by cases he) p hp

theorem some_pair_start_le {s j : Nat} {acc : List Char} (hs : s ≤ j) :
    ∀ (s1 : Nat) (acc1 : List Char), some (s, acc) = some (s1, acc1) → s1 ≤ j := by
  intro s1 acc1 he
  injection he with he1
  injection he1 with he2 he3
  subst he2
  exact hs

theorem scanTokensAux_start_lb :
    ∀ (l : List Char) (i : Nat) (pw : Bool) (cur : Option (Nat × List Char)),
      (∀ s acc, cur = some (s, acc) → s ≤ i) →
      ∀ p ∈ scanTokensAux i pw cur l,
        (match cur with | none => i | some (s, _) => s) ≤ p.2.1 := by
  intro l
  induction l with
  | nil =>
    intro i pw cur hcur p hp
    cases cur with
    | none => simp [scanTokensAux] at hp
    | some sc =>
      obtain ⟨s, acc⟩ := sc
      simp only [scanTokensAux, List.mem_singleton] at hp
      subst hp
      exact Nat.le_refl s
  | cons c cs ih =>
    intro i pw cur hcur p hp
    cases cur with
    | some sc =>
      obtain ⟨s, acc⟩ := sc
      have hs : s ≤ i := hcur s acc rfl
      by_cases hcl : isAsciiLetter c = true
      · simp only [scanTokensAux, hcl, if_true] at hp
        have := ih (i + 1) true (some (s, c :: acc))
          (some_pair_start_le (by omega)) p hp
        exact this
      · have hcl' : isAsciiLetter c = false := Bool.eq_false_iff.mpr hcl
        by_cases hcw : isReWordChar c = true
        · simp only [scanTokensAux, hcl', hcw, Bool.false_eq_true, if_false,
            if_true] at hp
          have h2 : i + 1 ≤ p.2.1 := ih (i + 1) true none
            (fun s1 acc1 he => by cases he) p hp
          show s ≤ p.2.1
          omega
        · have hcw' : isReWordChar c = false := Bool.eq_false_iff.mpr hcw
          simp only [scanTokensAux, hcl', hcw', Bool.false_eq_true,
            if_false] at hp
          rcases List.mem_cons.mp hp with he | htail
          · subst he
            exact Nat.le_refl s
          · have h2 : i + 1 ≤ p.2.1 := ih (i + 1) false none
              (fun s1 acc1 he => by cases he) p htail
            show s ≤ p.2.1
            omega
    | none =>
      by_cases hstart : (isAsciiLetter c && !pw) = true
      · simp only [scanTokensAux, hstart, if_true] at hp
        have h2 : i ≤ p.2.1 := ih (i + 1) true (some (i, [c]))
          (some_pair_start_le (by omega)) p hp
        exact h2
      · have hstart' : (isAsciiLetter c && !pw) = false :=
          Bool.eq_false_iff.mpr hstart
        simp only [scanTokensAux, hstart', Bool.false_eq_true, if_false] at hp
        have h2 : i + 1 ≤ p.2.1 := ih (i + 1) (isReWordChar c) none
          (fun s1 acc1 he => by cases he) p hp
        show i ≤ p.2.1
        omega

theorem scanTokensAux_pairwise :
    ∀ (l : List Char) (i : Nat) (pw : Bool) (cur : Option (Nat × List Char)),
      (∀ s acc, cur = some (s, acc) → s ≤ i) →
      List.Pairwise (fun p q : List Char × Nat × Nat => p.2.1 < q.2.1)
        (scanTokensAux i pw cur l) := by
  intro l
  induction l with
  | nil =>
    intro i pw cur hcur
    cases cur with
    | none => simp [scanTokensAux]
    | some sc =>
      obtain ⟨s, acc⟩ := sc
      simp only [scanTokensAux]
      exact List.pairwise_singleton _ _
  | cons c cs ih =>
    intro i pw cur hcur
    cases cur with
    | some sc =>
      obtain ⟨s, acc⟩ := sc
      have hs : s ≤ i := hcur s acc rfl
      by_cases hcl : isAsciiLetter c = true
      · simp only [scanTokensAux, hcl, if_true]
        exact ih (i + 1) true (some (s, c :: acc))
          (some_pair_start_le (by omega))
      · have hcl' : isAsciiLetter c = false := Bool.eq_false_iff.mpr hcl
        by_cases hcw : isReWordChar c = true
        · simp only [scanTokensAux, hcl', hcw, Bool.false_eq_true, if_false,
            if_true]
          exact ih (i + 1) true none (fun s1 acc1 he => by cases he)
        · have hcw' : isReWordChar c = false := Bool.eq_false_iff.mpr hcw
          simp only [scanTokensAux, hcl', hcw', Bool.false_eq_true, if_false]
          refine List.Pairwise.cons ?_
            (ih (i + 1) false none (fun s1 acc1 he => by cases he))
          intro q hq
          have h2 : i + 1 ≤ q.2.1 := scanTokensAux_start_lb cs (i + 1)
            false none (fun s1 acc1 he => by cases he) q hq
          show s < q.2.1
          omega
    | none =>
      by_cases hstart : (isAsciiLetter c && !pw) = true
      · simp only [scanTokensAux, hstart, if_true]
        exact ih (i + 1) true (some (i, [c]))
          (some_pair_start_le (by omega))
      · have hstart' : (isAsciiLetter c && !pw) = false :=
          Bool.eq_false_iff.mpr hstart
        simp only [scanTokensAux, hstart', Bool.false_eq_true, if_false]
        exact ih (i + 1) (isReWordChar c) none (fun s1 acc1 he => by cases he)

/-- Claim C9: every `(word, start, end)` triple reported by the
misspelled-word finder satisfies `start < end ≤ len(text)` with
`text[start:end] = word` and the word all ASCII letters (so a token
containing a digit or other non-letter is never reported), and the
triples appear in strictly increasing order of start. -/
theorem C9_misspelled_spans :
    ∀ (known : List Char → Bool) (text : List Char),
      (∀ p ∈ find_misspelled_words known text,
        p.2.1 < p.2.2 ∧ p.2.2 ≤ text.length ∧
        (text.drop p.2.1).take (p.2.2 - p.2.1) = p.1 ∧
        p.1.all isAsciiLetter = true) ∧
      List.Pairwise (fun p q : List Char × Nat × Nat => p.2.1 < q.2.1)
        (find_misspelled_words known text) := by
  intro known text
  constructor
  · intro p hp
    have hp' : p ∈ scanTokensAux 0 false none text :=
      List.mem_of_mem_filter hp
    exact scanTokensAux_spec text text 0 false none
      (List.drop_zero text).symm (Nat.zero_le _)
      (fun s acc h => by cases h) p hp'
  · exact List.Pairwise.filter _
      (scanTokensAux_pairwise text 0 false none (fun s acc h => by cases h))

/-- Witness for C9: span facts for the first reported word of a concrete
text against the empty dictionary. -/
theorem C9_misspelled_spans_witness :
    (0 : Nat) < 2 ∧ 2 ≤ (("hi").data).length ∧
    ((("hi").data).drop 0).take (2 - 0) = ("hi").data ∧
    (("hi").data).all isAsciiLetter = true :=
  (C9_misspelled_spans (fun _ => false) (("hi").data)).1
    ((("hi").data), 0, 2) (by decide)

/-- Witness for C5: a negative offset yields `(1, 1)`. -/
theorem C5_get_line_col_witness :
    get_line_col (("ab").data) (-3) = (1, 1) :=
  (C5_get_line_col.1 (("ab").data) (-3)).2.2 (Or.inl (by decide))
